import Mathlib

/-
  Verification of the question-answering inference pipeline implemented in
  src/app/api/qa/route.ts of mnaukohutka/ai-backend-vercel-.

  The development is a shallow embedding: each relevant fragment of the
  TypeScript source is translated into an executable Lean definition, and the
  specified properties are proved (or refuted on concrete inputs) about those
  definitions.  Numbers are modelled with Nat/Int; logit values, which the
  source only ever compares with the strict order, are modelled as Int; strings
  are modelled as lists of characters.
-/

set_option maxRecDepth 10000
set_option maxHeartbeats 1600000

namespace QaRoute

/-! ### Tensor builder (route.ts lines 142-164)

The handler copies the token list, truncates it to `maxLength` via
`paddedTokens.length = maxLength` when it is longer, and otherwise pushes the
pad id 0 until the length reaches `maxLength`.  The attention mask is then
built from the padded list by `paddedTokens.map(t => t === 0 ? 0n : 1n)`. -/

def padTokens (tokens : List Nat) (maxLength : Nat) : List Nat :=
  if maxLength < tokens.length then
    tokens.take maxLength
  else
    tokens ++ List.replicate (maxLength - tokens.length) 0

def attentionMaskOf (padded : List Nat) : List Nat :=
  padded.map (fun t => if t = 0 then 0 else 1)

/-! ### Greedy decoder (route.ts lines 179-205)

For each output position the handler scans candidate ids
`t in [0, min(vocabSize, 10000))`, reading `logitsData[tokenPos * vocabSize + t]`
and keeping the first strictly greater value (`if (prob > maxProb)`), starting
from `maxProb = -Infinity`, `maxToken = 0`.  The outer loop runs `i` from 0
while `i < maxNewTokens`, breaking when `startIdx + i >= maxLength` or when the
selected id is 0 or 2, and otherwise appends the selected id.

Logit values are modelled as `Int` (the source only compares them with `>`);
the `-Infinity` initialiser is modelled as `⊥ : WithBot Int`. -/

def scanBound (vocabSize : Nat) : Nat := min vocabSize 10000

def argmaxFold (f : Nat → Int) (n : Nat) : WithBot Int × Nat :=
  (List.range n).foldl
    (fun acc t => if (f t : WithBot Int) > acc.1 then ((f t : WithBot Int), t) else acc)
    ((⊥ : WithBot Int), 0)

def selectToken (logitsData : Nat → Int) (vocabSize tokenPos : Nat) : Nat :=
  (argmaxFold (fun t => logitsData (tokenPos * vocabSize + t)) (scanBound vocabSize)).2

def decodeLoop (sel : Nat → Nat) (startIdx maxLength : Nat) : Nat → Nat → List Nat
  | 0, _ => []
  | fuel + 1, i =>
    if maxLength ≤ startIdx + i then []
    else
      let tok := sel (startIdx + i)
      if tok = 0 ∨ tok = 2 then []
      else tok :: decodeLoop sel startIdx maxLength fuel (i + 1)

def decodeTokens (logitsData : Nat → Int) (vocabSize startIdx maxLength maxNewTokens : Nat) :
    List Nat :=
  decodeLoop (fun pos => selectToken logitsData vocabSize pos) startIdx maxLength maxNewTokens 0

/-! ### Model acquirer (route.ts lines 15-49)

`downloadModel` returns immediately when `fs.existsSync(MODEL_CACHE)` is true.
Otherwise it opens a write stream (which creates the file on disk), issues
`https.get(MODEL_URL, ...)` and:
* on an error event of that first request, unlinks the cache file and rejects;
* on a 301/302 response it issues a second `https.get` on the `Location`
  header; an error event of that second request rejects WITHOUT unlinking;
* otherwise it pipes the response body into the file and resolves.

The network environment is modelled by the outcome of the first request and,
when it is a redirect, the outcome of the second request.  The cache file is
modelled by a three-valued state; `fetches` counts `https.get` calls. -/

inductive FileState where
  | absent : FileState
  | truncated : FileState
  | written : FileState
deriving DecidableEq

def fsExists : FileState → Bool
  | .absent => false
  | _ => true

inductive FirstHop where
  | errored : FirstHop
  | redirected : Bool → FirstHop
  | responded : FirstHop
deriving DecidableEq

structure DLResult where
  ok : Bool
  file : FileState
  fetches : Nat
deriving DecidableEq

def downloadModel (file : FileState) (net : FirstHop) : DLResult :=
  if fsExists file then
    ⟨true, file, 0⟩
  else
    match net with
    | .errored => ⟨false, .absent, 1⟩
    | .redirected secondOk =>
      if secondOk then ⟨true, .written, 2⟩ else ⟨false, .truncated, 2⟩
    | .responded => ⟨true, .written, 1⟩

/-! ### Session manager (route.ts lines 10-12 and 52-74)

`getSession` runs on the Node.js event loop: each code segment between `await`
points executes atomically, and concurrent callers interleave only at those
points.  Shared module state: `session : InferenceSession | null`,
`modelLoading : Promise<void> | null`, and the cache file on disk.

The embedding models two concurrent first-time callers.  Each caller is a
program counter over the await-segments of `getSession`:

* `start`    — lines 53-63: return the session if set; otherwise if
  `modelLoading` is set, await it (`waitML`); otherwise call `downloadModel()`
  (whose synchronous prefix checks `fs.existsSync` and, on a miss, starts the
  network download), store the promise in `modelLoading` and await it
  (`waitDL`).
* `waitML`   — lines 57-58 and fallthrough to 62-63: once the awaited promise
  resolves, return the session if set; otherwise call `downloadModel()` again,
  overwrite `modelLoading` and await it (`waitDL`).
* `waitDL`   — lines 64-67: once the awaited promise resolves, clear
  `modelLoading` and start `ort.InferenceSession.create` (counted by
  `creates`; the fresh instance is identified by the new counter value).
* `waitCreate sid` — line 67 completes: publish `session := sid` and return it.

Every promise awaited in `waitML`/`waitDL` is either the pending download
promise (created while the cache file was absent, resolved exactly when the
download finishes) or an already-resolved promise (created by `downloadModel`
once the file exists); since `fileExists` only ever becomes true when the
download finishes, a caller blocked in `waitML`/`waitDL` is runnable exactly
when `fileExists` is true.  The scheduler event `net` completes the in-flight
download (writing the file); `run0`/`run1` advance a runnable caller by one
atomic segment.  Failure-free executions are modelled, matching the claim's
scenario. -/

inductive Pc where
  | start : Pc
  | waitML : Pc
  | waitDL : Pc
  | waitCreate : Nat → Pc
  | finished : Nat → Pc
deriving DecidableEq

structure GState where
  sess : Option Nat
  mlSome : Bool
  fileExists : Bool
  downloads : Nat
  creates : Nat
  pc0 : Pc
  pc1 : Pc
deriving DecidableEq

/-- Synchronous prefix of `downloadModel()` as called from `getSession`:
check `fs.existsSync`; on a miss start the network download (one fetch); in
both cases the returned promise is stored into `modelLoading`. -/
def startDownload (g : GState) : GState :=
  if g.fileExists then { g with mlSome := true }
  else { g with mlSome := true, downloads := g.downloads + 1 }

def stepCaller (g : GState) (p : Pc) : GState × Pc :=
  match p with
  | .start =>
    match g.sess with
    | some sid => (g, .finished sid)
    | none =>
      if g.mlSome then (g, .waitML)
      else (startDownload g, .waitDL)
  | .waitML =>
    if g.fileExists then
      match g.sess with
      | some sid => (g, .finished sid)
      | none => (startDownload g, .waitDL)
    else (g, .waitML)
  | .waitDL =>
    if g.fileExists then
      ({ g with mlSome := false, creates := g.creates + 1 }, .waitCreate (g.creates + 1))
    else (g, .waitDL)
  | .waitCreate sid => ({ g with sess := some sid }, .finished sid)
  | .finished sid => (g, .finished sid)

inductive Ev where
  | net : Ev
  | run0 : Ev
  | run1 : Ev
deriving DecidableEq

def step (g : GState) (e : Ev) : GState :=
  match e with
  | .net => if g.downloads = 0 then g else { g with fileExists := true }
  | .run0 => let r := stepCaller g g.pc0; { r.1 with pc0 := r.2 }
  | .run1 => let r := stepCaller g g.pc1; { r.1 with pc1 := r.2 }

def initState : GState := ⟨none, false, false, 0, 0, .start, .start⟩

def runSched (es : List Ev) : GState := es.foldl step initState

def isFinished : Pc → Bool
  | .finished _ => true
  | _ => false

def resultOf : Pc → Option Nat
  | .finished sid => some sid
  | _ => none

def advanced : Pc → Bool
  | .waitCreate _ => true
  | .finished _ => true
  | _ => false

def contrib : Pc → Nat
  | .waitCreate _ => 1
  | .finished _ => 1
  | _ => 0

/-- The interleaving exhibiting the double session construction: caller 0
starts the download, caller 1 awaits `modelLoading`, the download completes,
caller 0 clears `modelLoading` and starts creating the session, caller 1
resumes with `session` still null and creates a second session. -/
def raceSchedule : List Ev := [.run0, .run1, .net, .run0, .run1, .run1, .run0, .run1]

def SessInv (g : GState) : Prop :=
  g.downloads ≤ 1 ∧
  (g.mlSome = false → g.downloads = 0 ∨ g.fileExists = true) ∧
  (g.fileExists = true → g.downloads = 1) ∧
  (advanced g.pc0 = true → g.fileExists = true) ∧
  (advanced g.pc1 = true → g.fileExists = true) ∧
  (g.sess.isSome = true → g.fileExists = true) ∧
  g.creates ≤ contrib g.pc0 + contrib g.pc1

/-! ### Tokenizer and detokenizer (route.ts lines 86-115)

`tokenize` lowercases the text, strips every character that is not a word
character (`\w` = ASCII letters, digits, underscore), whitespace (`\s`), or
one of the Czech diacritic letters `áčďéěíňóřšťúůýž`, splits on whitespace
runs discarding empty fragments, and maps each word through the vocabulary
with default 0 (`vocab[word] ?? 0`).

`detokenize` builds the reverse map by iterating the vocabulary entries in
order (a later entry with the same id overwrites an earlier one), maps each id
to its word, drops ids with no mapping, empty words and the literal structural
tokens, joins with single spaces and trims.

Texts are modelled as lists of characters; the vocabulary as the ordered list
of entries of the JSON object.  `jsToLower` models `toLowerCase` on the ASCII
range and the Czech diacritic capitals (the characters the pipeline is used
with); `isSpaceCharB` models `\s` on the ASCII whitespace characters. -/

def czechLower : List Char :=
  ['á', 'č', 'ď', 'é', 'ě', 'í', 'ň', 'ó', 'ř', 'š', 'ť', 'ú', 'ů', 'ý', 'ž']

def jsToLower (c : Char) : Char :=
  if 'A' ≤ c ∧ c ≤ 'Z' then Char.ofNat (c.toNat + 32)
  else match c with
    | 'Á' => 'á' | 'Č' => 'č' | 'Ď' => 'ď' | 'É' => 'é' | 'Ě' => 'ě'
    | 'Í' => 'í' | 'Ň' => 'ň' | 'Ó' => 'ó' | 'Ř' => 'ř' | 'Š' => 'š'
    | 'Ť' => 'ť' | 'Ú' => 'ú' | 'Ů' => 'ů' | 'Ý' => 'ý' | 'Ž' => 'ž'
    | _ => c

def isWordCharB (c : Char) : Bool :=
  ('a' ≤ c && c ≤ 'z') || ('A' ≤ c && c ≤ 'Z') || ('0' ≤ c && c ≤ '9') || c = '_'

def isSpaceCharB (c : Char) : Bool :=
  c = ' ' || c = '\t' || c = '\n' || c = '\r' || c = '\x0b' || c = '\x0c'

def keepChar (c : Char) : Bool :=
  isWordCharB c || isSpaceCharB c || czechLower.contains c

def normalizeChars (text : List Char) : List Char :=
  (text.map jsToLower).filter keepChar

def splitWordsGo (cur : List Char) : List Char → List (List Char)
  | [] => if cur.isEmpty then [] else [cur.reverse]
  | c :: rest =>
    if isSpaceCharB c then
      if cur.isEmpty then splitWordsGo [] rest
      else cur.reverse :: splitWordsGo [] rest
    else splitWordsGo (c :: cur) rest

def splitWords (cs : List Char) : List (List Char) :=
  splitWordsGo [] cs

def Vocab : Type := List (List Char × Nat)

def vocabLookup (v : Vocab) (w : List Char) : Option Nat :=
  (List.find? (fun p => p.1 == w) v).map (fun p => p.2)

def tokenize (v : Vocab) (text : List Char) : List Nat :=
  (splitWords (normalizeChars text)).map (fun w => (vocabLookup v w).getD 0)

def reverseLookup (v : Vocab) (i : Nat) : Option (List Char) :=
  (List.find? (fun p => p.2 == i) (List.reverse v)).map (fun p => p.1)

def markers : List (List Char) :=
  ["<unk>".data, "<pad>".data, "<s>".data, "</s>".data]

def joinSpace : List (List Char) → List Char
  | [] => []
  | [w] => w
  | w :: ws => w ++ ' ' :: joinSpace ws

def jsTrim (cs : List Char) : List Char :=
  (((cs.dropWhile isSpaceCharB).reverse.dropWhile isSpaceCharB)).reverse

def detokenize (v : Vocab) (ids : List Nat) : List Char :=
  jsTrim (joinSpace (ids.filterMap (fun i =>
    match reverseLookup v i with
    | none => none
    | some w => if w.isEmpty || markers.contains w then none else some w)))

/-! ### POST handler (route.ts lines 118-233)

The request body's `question` field is either absent, a non-string JSON value,
or a string.  The guard `if (!question || typeof question !== 'string')`
returns `400` when the field is missing, not a string, or a falsy string (the
empty string is the only falsy string).  Otherwise the handler builds the
prompt `Otázka: ${question}\nOdpověď:`, tokenizes it, and decodes greedily
starting at the unpadded input length, with `vocabSize` the number of
vocabulary entries; the forward pass producing the logits tensor is abstracted
as the `logitsData` parameter.  An empty decoded answer is replaced by the
fallback string and responses are emitted via `Response.json`, whose default
status is 200. -/

inductive ReqQuestion where
  | missing : ReqQuestion
  | nonString : ReqQuestion
  | str : List Char → ReqQuestion
deriving DecidableEq

structure QaResponse where
  status : Nat
  answer : Option (List Char)
  input_tokens : Nat
  output_tokens : Nat
deriving DecidableEq

def fallbackAnswer : List Char := "Model negeneroval odpověď".data

def promptFor (question : List Char) : List Char :=
  "Otázka: ".data ++ question ++ "\nOdpověď:".data

def handlePost (v : Vocab) (logitsData : Nat → Int) (q : ReqQuestion) : QaResponse :=
  match q with
  | .str s =>
    if s.isEmpty then ⟨400, none, 0, 0⟩
    else
      let inputTokens := tokenize v (promptFor s)
      let outputTokens := decodeTokens logitsData v.length inputTokens.length 512 100
      let answer := detokenize v outputTokens
      ⟨200, some (if answer.isEmpty then fallbackAnswer else answer),
        inputTokens.length, outputTokens.length⟩
  | _ => ⟨400, none, 0, 0⟩

/-- Concrete vocabulary for the long-prompt witness. -/
def wVocab : Vocab := [("a".data, 1)]

/-- Concrete question of 512 space-separated words, whose prompt tokenizes to
514 tokens. -/
def wQuestion : List Char := joinSpace (List.replicate 512 "a".data)

/-! ### Tokenize/detokenize round trip (C8) -/

def lowerWord (w : List Char) : List Char := w.map jsToLower

/-- Hypotheses of the round-trip claim for one word: after lowercasing it is
non-empty, consists only of characters the normalisation keeps (word
characters or Czech diacritics, hence no whitespace), is present in the
vocabulary, its id maps back to it through the reverse mapping (the "unique
reverse image" condition), and it is not one of the structural markers. -/
def goodWord (v : Vocab) (w : List Char) : Prop :=
  lowerWord w ≠ [] ∧
  (∀ c ∈ lowerWord w, isWordCharB c = true ∨ czechLower.contains c = true) ∧
  (∃ i, vocabLookup v (lowerWord w) = some i ∧ reverseLookup v i = some (lowerWord w)) ∧
  markers.contains (lowerWord w) = false

/-- Concrete vocabulary for the round-trip witness. -/
def rtVocab : Vocab := [("ahoj".data, 5), ("svete".data, 7)]

theorem padTokens_length_eq (tokens : List Nat) (maxLength : Nat) :
    (padTokens tokens maxLength).length = maxLength := by
  unfold padTokens
  split
  · simp only [List.length_take]
    omega
  · simp only [List.length_append, List.length_replicate]
    omega

/-- C7: for every input token sequence (including the empty one and sequences
longer than `maxLength` = 512), both the padded token sequence and the
attention mask produced by the tensor-building step have length exactly 512. -/
theorem padTokens_attentionMask_length (tokens : List Nat) :
    (padTokens tokens 512).length = 512 ∧
    (attentionMaskOf (padTokens tokens 512)).length = 512 := by
  refine ⟨padTokens_length_eq tokens 512, ?_⟩
  unfold attentionMaskOf
  rw [List.length_map]
  exact padTokens_length_eq tokens 512

/-- C2 (amended): the attention mask is zero at a position exactly when the
padded token there is the pad/unknown id 0, irrespective of whether the
position lies beyond the original (unpadded) input length.  In particular an
in-range unknown-word token (id 0) also receives mask 0. -/
theorem attentionMask_zero_iff (tokens : List Nat) (i : Nat) (h : i < 512) :
    ((attentionMaskOf (padTokens tokens 512)).getD i 7 = 0 ↔
      (padTokens tokens 512).getD i 7 = 0) := by
  have hlen : (padTokens tokens 512).length = 512 := padTokens_length_eq tokens 512
  have hi : i < (padTokens tokens 512).length := by omega
  set v := (padTokens tokens 512).get ⟨i, hi⟩ with hvdef
  have hv' : (padTokens tokens 512).get? i = some v := List.get?_eq_get hi
  have hmask : (attentionMaskOf (padTokens tokens 512)).get? i =
      some (if v = 0 then 0 else 1) := by
    unfold attentionMaskOf
    rw [List.get?_map, hv', Option.map_some']
  rw [List.getD_eq_get?, List.getD_eq_get?, hv', hmask]
  simp only [Option.getD_some]
  by_cases hz : v = 0
  · simp [hz]
  · simp [hz]

/-- C2 witness: the amended equivalence instantiated at the concrete input
`[5]` and position 0. -/
theorem attentionMask_zero_iff_witness :
    ((attentionMaskOf (padTokens [5] 512)).getD 0 7 = 0 ↔
      (padTokens [5] 512).getD 0 7 = 0) :=
  attentionMask_zero_iff [5] 0 (by decide)

/-- C2 counterexample: for the input token sequence `[0]` (a single in-range
unknown-word token) at position 0, the mask is 0 although the position is
strictly below the original input length 1, refuting the claimed equivalence
`mask[i] = 0 ↔ (tokens[i] = 0 ∧ originalLength ≤ i)`. -/
theorem attentionMask_position_counterexample :
    ¬ ((attentionMaskOf (padTokens [0] 512)).getD 0 7 = 0 ↔
        ((padTokens [0] 512).getD 0 7 = 0 ∧ [0].length ≤ 0)) := by
  decide

theorem argmaxFold_spec (f : Nat → Int) (n : Nat) (hn : 0 < n) :
    (argmaxFold f n).1 = ((f (argmaxFold f n).2 : Int) : WithBot Int) ∧
    (argmaxFold f n).2 < n ∧
    (∀ t, t < n → f t ≤ f (argmaxFold f n).2) ∧
    (∀ t, t < (argmaxFold f n).2 → f t < f (argmaxFold f n).2) := by
  induction n with
  | zero => omega
  | succ m ih =>
    rcases Nat.eq_zero_or_pos m with hm | hm
    · subst hm
      have h0 : argmaxFold f 1 = ((f 0 : WithBot Int), 0) := by
        unfold argmaxFold
        simp [List.range_succ]
      rw [h0]
      refine ⟨rfl, by omega, ?_, ?_⟩
      · intro t ht
        interval_cases t
        exact le_refl _
      · intro t ht
        omega
    · obtain ⟨h1, h2, h3, h4⟩ := ih hm
      have hstep : argmaxFold f (m + 1) =
          (if (f m : WithBot Int) > (argmaxFold f m).1
            then ((f m : WithBot Int), m) else argmaxFold f m) := by
        unfold argmaxFold
        rw [List.range_succ, List.foldl_append, List.foldl_cons, List.foldl_nil]
      by_cases hcmp : (f m : WithBot Int) > (argmaxFold f m).1
      · rw [hstep, if_pos hcmp]
        rw [h1] at hcmp
        have hlt : f (argmaxFold f m).2 < f m := by exact_mod_cast hcmp
        refine ⟨rfl, by omega, ?_, ?_⟩
        · intro t ht
          rcases Nat.lt_succ_iff_lt_or_eq.mp ht with h | h
          · exact le_of_lt (lt_of_le_of_lt (h3 t h) hlt)
          · subst h; exact le_refl _
        · intro t ht
          exact lt_of_le_of_lt (h3 t ht) hlt
      · rw [hstep, if_neg hcmp]
        rw [h1] at hcmp
        have hle : f m ≤ f (argmaxFold f m).2 := by
          have := le_of_not_lt hcmp
          exact_mod_cast this
        refine ⟨h1, by omega, ?_, h4⟩
        intro t ht
        rcases Nat.lt_succ_iff_lt_or_eq.mp ht with h | h
        · exact h3 t h
        · subst h; exact hle

/-- C5: at every decode position, the scan over candidate ids
`t in [0, min(vocabSize, 10000))` selects an id in that range whose logit at
the position is maximal, ties broken by the lowest id (every id below the
selected one has a strictly smaller logit); in particular no id at or above
10000 is ever selected. -/
theorem selectToken_greedy_argmax (logitsData : Nat → Int) (vocabSize tokenPos : Nat)
    (h : 0 < scanBound vocabSize) :
    selectToken logitsData vocabSize tokenPos < scanBound vocabSize ∧
    (∀ t, t < scanBound vocabSize →
      logitsData (tokenPos * vocabSize + t) ≤
        logitsData (tokenPos * vocabSize + selectToken logitsData vocabSize tokenPos)) ∧
    (∀ t, t < selectToken logitsData vocabSize tokenPos →
      logitsData (tokenPos * vocabSize + t) <
        logitsData (tokenPos * vocabSize + selectToken logitsData vocabSize tokenPos)) ∧
    selectToken logitsData vocabSize tokenPos < 10000 := by
  unfold selectToken
  obtain ⟨_, h2, h3, h4⟩ :=
    argmaxFold_spec (fun t => logitsData (tokenPos * vocabSize + t)) (scanBound vocabSize) h
  have hb : scanBound vocabSize ≤ 10000 := Nat.min_le_right _ _
  exact ⟨h2, h3, h4, by omega⟩

/-- C5 witness: the greedy-argmax property instantiated at the concrete logits
row `[0, 0, 10, 0]` (vocabulary size 4, position 0), where id 2 is selected. -/
theorem selectToken_greedy_argmax_witness :
    selectToken (fun n => if n = 2 then 10 else 0) 4 0 < scanBound 4 ∧
    (∀ t, t < scanBound 4 →
      (fun n => if n = 2 then (10 : Int) else 0) (0 * 4 + t) ≤
        (fun n => if n = 2 then (10 : Int) else 0)
          (0 * 4 + selectToken (fun n => if n = 2 then 10 else 0) 4 0)) ∧
    (∀ t, t < selectToken (fun n => if n = 2 then (10 : Int) else 0) 4 0 →
      (fun n => if n = 2 then (10 : Int) else 0) (0 * 4 + t) <
        (fun n => if n = 2 then (10 : Int) else 0)
          (0 * 4 + selectToken (fun n => if n = 2 then 10 else 0) 4 0)) ∧
    selectToken (fun n => if n = 2 then (10 : Int) else 0) 4 0 < 10000 :=
  selectToken_greedy_argmax (fun n => if n = 2 then 10 else 0) 4 0 (by decide)

theorem decodeLoop_length_le (sel : Nat → Nat) (startIdx maxLength : Nat) :
    ∀ fuel i, (decodeLoop sel startIdx maxLength fuel i).length ≤
      min fuel (maxLength - (startIdx + i)) := by
  intro fuel
  induction fuel with
  | zero => intro i; simp [decodeLoop]
  | succ m ih =>
    intro i
    unfold decodeLoop
    split
    · simp
    · dsimp only
      split
      · simp
      · simp only [List.length_cons]
        have := ih (i + 1)
        omega

theorem decodeLoop_stop (sel : Nat → Nat) (startIdx maxLength fuel i : Nat)
    (h : maxLength ≤ startIdx + i ∨ sel (startIdx + i) = 0 ∨ sel (startIdx + i) = 2) :
    decodeLoop sel startIdx maxLength fuel i = [] := by
  cases fuel with
  | zero => rfl
  | succ m =>
    unfold decodeLoop
    rcases h with h | h
    · rw [if_pos h]
    · split
      · rfl
      · rw [if_pos h]

/-- C6: the decode loop (maxLength 512, maxNewTokens 100) always terminates
with an output of length at most `min 100 (512 - startIdx)`, and whenever the
greedy scan at the start position selects the unknown id 0 or the
end-of-sequence id 2, the output is empty (the stop id is not appended). -/
theorem decodeTokens_length_and_stop (logitsData : Nat → Int) (vocabSize startIdx : Nat) :
    (decodeTokens logitsData vocabSize startIdx 512 100).length ≤ min 100 (512 - startIdx) ∧
    ((selectToken logitsData vocabSize startIdx = 0 ∨
      selectToken logitsData vocabSize startIdx = 2) →
      decodeTokens logitsData vocabSize startIdx 512 100 = []) := by
  constructor
  · have := decodeLoop_length_le (fun pos => selectToken logitsData vocabSize pos)
      startIdx 512 100 0
    simpa [decodeTokens] using this
  · intro h
    unfold decodeTokens
    apply decodeLoop_stop
    simpa using Or.inr h

/-- C6 witness: with the logits row `[0, 0, 10, 0, 0]` (vocabulary size 5) the
scan at position 0 selects the end-of-sequence id 2 and decoding from
startIdx 0 returns the empty sequence, within the length bound. -/
theorem decodeTokens_length_and_stop_witness :
    (decodeTokens (fun n => if n = 2 then 10 else 0) 5 0 512 100).length ≤ min 100 512 ∧
    decodeTokens (fun n => if n = 2 then 10 else 0) 5 0 512 100 = [] :=
  ⟨by simpa using (decodeTokens_length_and_stop (fun n => if n = 2 then 10 else 0) 5 0).1,
   (decodeTokens_length_and_stop (fun n => if n = 2 then 10 else 0) 5 0).2
     (Or.inr (by decide))⟩

/-- C3 (amended): an error event on the initial request removes the partially
written cache file before the error is surfaced, but an error on the followed
redirect hop surfaces without removing the file, and a later call then treats
the truncated artifact as cached (returning success with zero fetches). -/
theorem downloadModel_cleanup_amended :
    downloadModel .absent .errored = ⟨false, .absent, 1⟩ ∧
    downloadModel .absent (.redirected false) = ⟨false, .truncated, 2⟩ ∧
    (∀ net, downloadModel .truncated net = ⟨true, .truncated, 0⟩) :=
  ⟨rfl, rfl, fun net => by cases net <;> rfl⟩

/-- C3 counterexample: when the first request redirects and the redirect hop
errors, the download fails but the truncated file is left at the cache path,
and a subsequent call observes it as cached — refuting the claim that every
download error removes the partial file before surfacing. -/
theorem downloadModel_cleanup_counterexample :
    (downloadModel .absent (.redirected false)).ok = false ∧
    (downloadModel .absent (.redirected false)).file ≠ .absent ∧
    (downloadModel (downloadModel .absent (.redirected false)).file .responded).ok = true ∧
    (downloadModel (downloadModel .absent (.redirected false)).file .responded).fetches = 0 := by
  decide

/-- C9: when a file already exists at the cache path the acquirer returns
success immediately with zero network fetches; consequently a second
sequential call after any successful call performs zero network fetches. -/
theorem downloadModel_cached_idempotent :
    (∀ file net, fsExists file = true → downloadModel file net = ⟨true, file, 0⟩) ∧
    (∀ file net1 net2, (downloadModel file net1).ok = true →
      (downloadModel (downloadModel file net1).file net2).fetches = 0 ∧
      (downloadModel (downloadModel file net1).file net2).ok = true) := by
  constructor
  · intro file net hf
    unfold downloadModel
    rw [if_pos hf]
  · intro file net1 net2 hok
    cases file <;> cases net1 <;>
      first
        | (rename_i secondOk; cases secondOk <;> simp_all [downloadModel, fsExists])
        | simp_all [downloadModel, fsExists]

/-- C9 witness: a fresh cache followed by a successful direct download, then a
second call, which performs zero fetches; and a call on an already written
cache, which returns success immediately with zero fetches. -/
theorem downloadModel_cached_idempotent_witness :
    downloadModel .written .errored = ⟨true, .written, 0⟩ ∧
    ((downloadModel (downloadModel .absent .responded).file .errored).fetches = 0 ∧
      (downloadModel (downloadModel .absent .responded).file .errored).ok = true) :=
  ⟨downloadModel_cached_idempotent.1 .written .errored (by decide),
   downloadModel_cached_idempotent.2 .absent .responded .errored (by decide)⟩

theorem sessInv_step (g : GState) (e : Ev) (h : SessInv g) : SessInv (step g e) := by
  obtain ⟨h1, h2, h3, h4, h5, h6, h7⟩ := h
  cases e with
  | net =>
    by_cases hd : g.downloads = 0
    · simp only [step]
      rw [if_pos hd]
      exact ⟨h1, h2, h3, h4, h5, h6, h7⟩
    · simp only [step]
      rw [if_neg hd]
      refine ⟨h1, fun _ => Or.inr rfl, fun _ => ?_, fun _ => rfl, fun _ => rfl,
        fun _ => rfl, h7⟩
      show g.downloads = 1
      omega
  | run0 =>
    simp only [step]
    cases hp : g.pc0 <;> cases hs : g.sess <;>
      simp only [stepCaller, startDownload, hs] <;>
      (try split_ifs) <;>
      refine ⟨?_, ?_, ?_, ?_, ?_, ?_, ?_⟩ <;>
      simp_all [SessInv, advanced, contrib] <;>
      omega
  | run1 =>
    simp only [step]
    cases hp : g.pc1 <;> cases hs : g.sess <;>
      simp only [stepCaller, startDownload, hs] <;>
      (try split_ifs) <;>
      refine ⟨?_, ?_, ?_, ?_, ?_, ?_, ?_⟩ <;>
      simp_all [SessInv, advanced, contrib] <;>
      omega

theorem sessInv_runSched (es : List Ev) : SessInv (runSched es) := by
  have hgen : ∀ (l : List Ev) (g : GState), SessInv g → SessInv (l.foldl step g) := by
    intro l
    induction l with
    | nil => intro g hg; exact hg
    | cons e l ih =>
      intro g hg
      exact ih (step g e) (sessInv_step g e hg)
  exact hgen es initState (by unfold SessInv initState advanced contrib; norm_num)

/-- C1 counterexample: an event-loop interleaving of two concurrent first-time
`getSession` callers under which both complete, the inference session is
constructed twice, and the two callers receive different Session instances —
refuting the claim that the construction executes exactly once and that all
callers receive the same instance. -/
theorem getSession_single_flight_counterexample :
    isFinished (runSched raceSchedule).pc0 = true ∧
    isFinished (runSched raceSchedule).pc1 = true ∧
    (runSched raceSchedule).creates = 2 ∧
    (runSched raceSchedule).downloads = 1 ∧
    resultOf (runSched raceSchedule).pc0 ≠ resultOf (runSched raceSchedule).pc1 := by
  decide

/-- C1 (amended): under two concurrent first-time calls to `getSession`, the
model download executes at most once in every interleaving (and exactly once
by the time any caller completes), and the session construction executes at
most twice; however it can actually execute twice, with the two callers
receiving different Session instances. -/
theorem getSession_single_flight_amended :
    (∀ es : List Ev, (runSched es).downloads ≤ 1) ∧
    (∀ es : List Ev, (runSched es).creates ≤ 2) ∧
    (∀ es : List Ev, isFinished (runSched es).pc0 = true ∨
      isFinished (runSched es).pc1 = true → (runSched es).downloads = 1) ∧
    ((runSched raceSchedule).creates = 2 ∧
      resultOf (runSched raceSchedule).pc0 ≠ resultOf (runSched raceSchedule).pc1) := by
  refine ⟨fun es => (sessInv_runSched es).1, ?_, ?_, by decide⟩
  · intro es
    obtain ⟨-, -, -, -, -, -, h7⟩ := sessInv_runSched es
    have c0 : contrib (runSched es).pc0 ≤ 1 := by
      cases (runSched es).pc0 <;> simp [contrib]
    have c1 : contrib (runSched es).pc1 ≤ 1 := by
      cases (runSched es).pc1 <;> simp [contrib]
    omega
  · intro es hfin
    obtain ⟨h1, -, h3, h4, h5, -, -⟩ := sessInv_runSched es
    rcases hfin with hf | hf
    · have : advanced (runSched es).pc0 = true := by
        cases hpc : (runSched es).pc0 <;> simp_all [isFinished, advanced]
      exact h3 (h4 this)
    · have : advanced (runSched es).pc1 = true := by
        cases hpc : (runSched es).pc1 <;> simp_all [isFinished, advanced]
      exact h3 (h5 this)

/-- C1 witness: the amended statement instantiated at the race interleaving,
where caller 0 has finished and the download indeed executed exactly once. -/
theorem getSession_single_flight_amended_witness :
    (runSched raceSchedule).downloads ≤ 1 ∧
    (runSched raceSchedule).creates ≤ 2 ∧
    (runSched raceSchedule).downloads = 1 :=
  ⟨getSession_single_flight_amended.1 raceSchedule,
   getSession_single_flight_amended.2.1 raceSchedule,
   getSession_single_flight_amended.2.2.1 raceSchedule (Or.inl (by decide))⟩

/-- C4 (amended): the handler returns status 400 exactly when the `question`
field is missing, not a string, or the empty string (the only falsy string);
every non-empty string proceeds to inference with status 200. -/
theorem handlePost_status_400_iff (v : Vocab) (logitsData : Nat → Int) (q : ReqQuestion) :
    (handlePost v logitsData q).status = 400 ↔
      (q = .missing ∨ q = .nonString ∨ q = .str []) := by
  cases q with
  | missing => simp [handlePost]
  | nonString => simp [handlePost]
  | str s =>
    cases s with
    | nil => simp [handlePost]
    | cons c cs => simp [handlePost]

/-- C4 counterexample: the request `{"question": ""}` carries a present,
string-typed `question`, yet the handler returns 400 because the empty string
is falsy — refuting the claim that 400 is returned only when `question` is
missing or not a string. -/
theorem handlePost_empty_string_counterexample :
    (handlePost [] (fun _ => 0) (.str [])).status = 400 ∧
    ReqQuestion.str [] ≠ ReqQuestion.missing ∧
    ReqQuestion.str [] ≠ ReqQuestion.nonString := by
  refine ⟨rfl, ?_, ?_⟩ <;> intro h <;> cases h

/-- C10: for every valid (non-empty string) question whose prompt tokenizes to
at least 512 tokens, the decode loop starts at the unpadded input length and
exits immediately: status 200, zero output tokens, and the fallback answer. -/
theorem handlePost_long_prompt_fallback (v : Vocab) (logitsData : Nat → Int)
    (s : List Char) (hs : s ≠ []) (hlen : 512 ≤ (tokenize v (promptFor s)).length) :
    (handlePost v logitsData (.str s)).status = 200 ∧
    (handlePost v logitsData (.str s)).output_tokens = 0 ∧
    (handlePost v logitsData (.str s)).answer = some fallbackAnswer := by
  have hne : s.isEmpty = false := by
    cases s with
    | nil => exact absurd rfl hs
    | cons c cs => rfl
  have hdec : decodeTokens logitsData v.length (tokenize v (promptFor s)).length 512 100
      = [] := by
    unfold decodeTokens
    apply decodeLoop_stop
    left
    omega
  simp only [handlePost, hne, Bool.false_eq_true, if_false, hdec]
  refine ⟨?_, ?_, ?_⟩ <;> simp [detokenize, jsTrim, joinSpace]

/-- C10 witness: the long-prompt behaviour instantiated at a concrete 512-word
question. -/
theorem handlePost_long_prompt_fallback_witness :
    (handlePost wVocab (fun _ => 0) (.str wQuestion)).status = 200 ∧
    (handlePost wVocab (fun _ => 0) (.str wQuestion)).output_tokens = 0 ∧
    (handlePost wVocab (fun _ => 0) (.str wQuestion)).answer = some fallbackAnswer :=
  handlePost_long_prompt_fallback wVocab (fun _ => 0) wQuestion (by decide) (by decide)

theorem clean_not_space (c : Char)
    (h : isWordCharB c = true ∨ czechLower.contains c = true) :
    isSpaceCharB c = false := by
  by_contra hns
  have hs : isSpaceCharB c = true := by simpa using hns
  simp only [isSpaceCharB, Bool.or_eq_true, decide_eq_true_eq] at hs
  rcases hs with ((((h1 | h1) | h1) | h1) | h1) | h1 <;> subst h1 <;> revert h <;> decide

theorem clean_keep (c : Char)
    (h : isWordCharB c = true ∨ czechLower.contains c = true) :
    keepChar c = true := by
  rcases h with h | h <;> (unfold keepChar; rw [h]) <;> simp

theorem map_joinSpace (f : Char → Char) (hf : f ' ' = ' ') (ws : List (List Char)) :
    (joinSpace ws).map f = joinSpace (ws.map (List.map f)) := by
  induction ws with
  | nil => rfl
  | cons w ws ih =>
    cases ws with
    | nil => rfl
    | cons x xs =>
      simp only [joinSpace, List.map_cons, List.map_append, List.map_cons] at *
      rw [hf, ih]

theorem filter_joinSpace (ws : List (List Char))
    (h : ∀ w ∈ ws, ∀ c ∈ w, keepChar c = true) :
    (joinSpace ws).filter keepChar = joinSpace ws := by
  induction ws with
  | nil => rfl
  | cons w ws ih =>
    cases ws with
    | nil =>
      show (joinSpace [w]).filter keepChar = joinSpace [w]
      simp only [joinSpace]
      exact List.filter_eq_self.mpr (fun c hc => h w (by simp) c hc)
    | cons x xs =>
      have hw : ∀ c ∈ w, keepChar c = true := h w (by simp)
      have hrest := ih (fun u hu c hc => h u (by simp [hu]) c hc)
      simp only [joinSpace] at hrest ⊢
      rw [List.filter_append, List.filter_eq_self.mpr hw,
        List.filter_cons_of_pos (by decide), hrest]

theorem splitWordsGo_cons_nonspace (cur : List Char) (c : Char) (rest : List Char)
    (hc : isSpaceCharB c = false) :
    splitWordsGo cur (c :: rest) = splitWordsGo (c :: cur) rest := by
  rw [splitWordsGo, if_neg (by simp [hc])]

theorem splitWordsGo_append_word (w : List Char) :
    ∀ (cur rest : List Char), (∀ c ∈ w, isSpaceCharB c = false) →
      splitWordsGo cur (w ++ rest) = splitWordsGo (w.reverse ++ cur) rest := by
  induction w with
  | nil => intro cur rest _; simp
  | cons c w ih =>
    intro cur rest h
    have hc : isSpaceCharB c = false := h c (by simp)
    have h' : ∀ d ∈ w, isSpaceCharB d = false := fun d hd => h d (by simp [hd])
    rw [List.cons_append, splitWordsGo_cons_nonspace cur c (w ++ rest) hc,
      ih (c :: cur) rest h']
    simp [List.append_assoc]

theorem splitWords_joinSpace (ws : List (List Char))
    (h : ∀ w ∈ ws, w ≠ [] ∧ ∀ c ∈ w, isSpaceCharB c = false) :
    splitWords (joinSpace ws) = ws := by
  induction ws with
  | nil => rfl
  | cons w ws ih =>
    obtain ⟨hne, hns⟩ := h w (by simp)
    have hrevne : w.reverse ≠ [] := by simpa using hne
    cases ws with
    | nil =>
      show splitWordsGo [] (joinSpace [w]) = [w]
      have h2 := splitWordsGo_append_word w [] [] hns
      simp only [List.append_nil] at h2
      show splitWordsGo [] w = [w]
      rw [h2]
      unfold splitWordsGo
      rw [if_neg (by simpa [List.isEmpty_iff] using hrevne)]
      rw [List.reverse_reverse]
    | cons x xs =>
      have hrest := ih (fun u hu => h u (by simp [hu]))
      show splitWordsGo [] (joinSpace (w :: x :: xs)) = w :: x :: xs
      have hjoin : joinSpace (w :: x :: xs) = w ++ ' ' :: joinSpace (x :: xs) := rfl
      rw [hjoin]
      have h2 := splitWordsGo_append_word w [] (' ' :: joinSpace (x :: xs)) hns
      simp only [List.append_nil] at h2
      rw [h2]
      show splitWordsGo w.reverse (' ' :: joinSpace (x :: xs)) = w :: x :: xs
      unfold splitWordsGo
      rw [if_pos (by decide), if_neg (by simpa [List.isEmpty_iff] using hrevne),
        List.reverse_reverse]
      exact congrArg (w :: ·) hrest

theorem joinSpace_reverse_head (ws : List (List Char)) (hne : ws ≠ [])
    (h : ∀ w ∈ ws, w ≠ [] ∧ ∀ c ∈ w, isSpaceCharB c = false) :
    ∃ c r, (joinSpace ws).reverse = c :: r ∧ isSpaceCharB c = false := by
  induction ws with
  | nil => exact absurd rfl hne
  | cons w ws ih =>
    obtain ⟨hwne, hwns⟩ := h w (by simp)
    cases ws with
    | nil =>
      have hrevne : w.reverse ≠ [] := by simpa using hwne
      cases hrev : w.reverse with
      | nil => exact absurd hrev hrevne
      | cons c r =>
        refine ⟨c, r, hrev, ?_⟩
        have hc : c ∈ w := by
          have : c ∈ w.reverse := by rw [hrev]; simp
          simpa using this
        exact hwns c hc
    | cons x xs =>
      obtain ⟨c, r, hrev, hc⟩ := ih (by simp) (fun u hu => h u (by simp [hu]))
      refine ⟨c, r ++ ' ' :: w.reverse, ?_, hc⟩
      have hjoin : joinSpace (w :: x :: xs) = w ++ ' ' :: joinSpace (x :: xs) := rfl
      rw [hjoin, List.reverse_append, List.reverse_cons, List.append_assoc, hrev]
      simp

theorem jsTrim_joinSpace (ws : List (List Char))
    (h : ∀ w ∈ ws, w ≠ [] ∧ ∀ c ∈ w, isSpaceCharB c = false) :
    jsTrim (joinSpace ws) = joinSpace ws := by
  cases ws with
  | nil => rfl
  | cons w ws' =>
    obtain ⟨hwne, hwns⟩ := h w (by simp)
    have hfront : (joinSpace (w :: ws')).dropWhile isSpaceCharB = joinSpace (w :: ws') := by
      cases w with
      | nil => exact absurd rfl hwne
      | cons c w' =>
        have hc : isSpaceCharB c = false := hwns c (by simp)
        cases ws' with
        | nil =>
          show (joinSpace [c :: w']).dropWhile isSpaceCharB = joinSpace [c :: w']
          simp only [joinSpace, List.dropWhile_cons, hc, Bool.false_eq_true, if_false]
        | cons x xs =>
          show ((c :: w') ++ ' ' :: joinSpace (x :: xs)).dropWhile isSpaceCharB =
            (c :: w') ++ ' ' :: joinSpace (x :: xs)
          simp only [List.cons_append, List.dropWhile_cons, hc, Bool.false_eq_true, if_false]
    obtain ⟨c2, r, hrev, hc2⟩ := joinSpace_reverse_head (w :: ws') (by simp) h
    unfold jsTrim
    rw [hfront, hrev, List.dropWhile_cons, if_neg (by simp [hc2]), ← hrev,
      List.reverse_reverse]

theorem tokens_detok (v : Vocab) (words : List (List Char))
    (H : ∀ w ∈ words, goodWord v w) :
    (words.map (fun w => (vocabLookup v (lowerWord w)).getD 0)).filterMap
        (fun i =>
          match reverseLookup v i with
          | none => none
          | some w => if w.isEmpty || markers.contains w then none else some w) =
      words.map lowerWord := by
  induction words with
  | nil => rfl
  | cons w ws ih =>
    obtain ⟨hne, _, ⟨i, hv, hr⟩, hmk⟩ := H w (by simp)
    have hrest := ih (fun u hu => H u (by simp [hu]))
    have hemp : (lowerWord w).isEmpty = false := by
      cases hlw : lowerWord w with
      | nil => exact absurd hlw hne
      | cons a l => rfl
    simp only [List.map_cons, List.filterMap_cons, hv, Option.getD_some, hr, hemp, hmk,
      Bool.or_self, Bool.false_eq_true, if_false, hrest]

/-- C8: for every sequence of words that are present in the vocabulary after
lowercasing, consist of characters the normalisation keeps, map to ids whose
reverse image is the word itself, and are none of the structural markers,
detokenizing the tokenization of the space-joined text reproduces the
original lowercased words in order, joined by single spaces. -/
theorem tokenize_detokenize_roundtrip (v : Vocab) (words : List (List Char))
    (H : ∀ w ∈ words, goodWord v w) :
    detokenize v (tokenize v (joinSpace words)) = joinSpace (words.map lowerWord) := by
  have hclean : ∀ lw ∈ words.map lowerWord, lw ≠ [] ∧ ∀ c ∈ lw, isSpaceCharB c = false := by
    intro lw hlw
    obtain ⟨w, hw, rfl⟩ := List.mem_map.mp hlw
    obtain ⟨hne, hch, -, -⟩ := H w hw
    exact ⟨hne, fun c hc => clean_not_space c (hch c hc)⟩
  have hnorm : normalizeChars (joinSpace words) = joinSpace (words.map lowerWord) := by
    unfold normalizeChars
    rw [map_joinSpace jsToLower (by decide) words]
    have : ∀ lw ∈ words.map (List.map jsToLower), ∀ c ∈ lw, keepChar c = true := by
      intro lw hlw c hc
      obtain ⟨w, hw, rfl⟩ := List.mem_map.mp hlw
      obtain ⟨-, hch, -, -⟩ := H w hw
      exact clean_keep c (hch c hc)
    exact filter_joinSpace _ this
  have hsplit : splitWords (joinSpace (words.map lowerWord)) = words.map lowerWord :=
    splitWords_joinSpace _ hclean
  have htok : tokenize v (joinSpace words) =
      words.map (fun w => (vocabLookup v (lowerWord w)).getD 0) := by
    unfold tokenize
    rw [hnorm, hsplit, List.map_map]
    rfl
  unfold detokenize
  rw [htok, tokens_detok v words H]
  exact jsTrim_joinSpace _ hclean

/-- C8 witness: the round trip instantiated at the two-word input
`["Ahoj", "svete"]` over `rtVocab`, reproducing `"ahoj svete"`. -/
theorem tokenize_detokenize_roundtrip_witness :
    detokenize rtVocab (tokenize rtVocab (joinSpace ["Ahoj".data, "svete".data])) =
      joinSpace (["Ahoj".data, "svete".data].map lowerWord) :=
  tokenize_detokenize_roundtrip rtVocab ["Ahoj".data, "svete".data] (by
    intro w hw
    simp only [List.mem_cons, List.not_mem_nil, or_false] at hw
    rcases hw with h | h
    · subst h
      exact ⟨by decide, by decide, ⟨5, by decide, by decide⟩, by decide⟩
    · subst h
      exact ⟨by decide, by decide, ⟨7, by decide, by decide⟩, by decide⟩)

end QaRoute
